import Mathlib

/-!
Verification of the tyin observable-state container.

The definitions below are a shallow embedding of the TypeScript sources:
`src/store.ts` (`createStore`), `src/extend.ts` (`extend`, `unpack`,
`sealExtensible`), `src/util-cache.ts` (`createCache`),
`src/util-dedupe.ts` (`dedupe`), `src/plugin-sync.ts` (`cachedPull`,
`cachedSync`) and `src/plugin-array.ts` (`arrayAPI`).

JavaScript values are modelled by `JSVal`; compound values (objects,
arrays) are modelled by reference identifiers into an explicit heap where
reference identity matters.  `Object.is` becomes decidable equality on
`JSVal` (same primitive value, or same reference id).  Millisecond
durations, which in the source are JS numbers that may be `Infinity`,
become `Duration`.  Timer callbacks (`setTimeout`) are recorded as
scheduled actions but never fire inside the synchronous call sequences the
claims are about.
-/

/-- JS exceptions are opaque to this library; we carry a message. -/
abbrev Err := String

/-- A JavaScript value: primitives carry their value, compound values
(objects, arrays, promises, functions) are represented by a heap
reference id, so that `Object.is` on them is reference identity. -/
inductive JSVal where
  | undef : JSVal
  | null : JSVal
  | bool : Bool → JSVal
  | num : Int → JSVal
  | str : String → JSVal
  | ref : Nat → JSVal
deriving DecidableEq

/-- JS truthiness for the values of `JSVal` (`undefined`, `null`, `false`,
`0` and `""` are falsy; references — objects, arrays, promises — are
always truthy). -/
def jsTruthy : JSVal → Bool
  | .undef => false
  | .null => false
  | .bool b => b
  | .num n => decide (n ≠ 0)
  | .str s => decide (s ≠ "")
  | .ref _ => true

/-- The `Object.is` comparison: same primitive value or same reference.  (The NaN / ±0
distinctions do not arise because numbers are modelled as integers.) -/
def objectIs (a b : JSVal) : Bool := decide (a = b)

/-- A JS millisecond duration: a finite number or `Infinity`. -/
inductive Duration where
  | fin : Int → Duration
  | inf : Duration
deriving DecidableEq

/-- Evaluates `d <= 0` on a JS number that may be `Infinity`. -/
def Duration.le0 : Duration → Bool
  | .fin n => decide (n ≤ 0)
  | .inf => false

/-- Evaluates `d > 0` on a JS number that may be `Infinity`. -/
def Duration.isPos : Duration → Bool
  | .fin n => decide (0 < n)
  | .inf => true

/-! ## Store core (`src/store.ts`, `createStore`) -/

/-- A state comparer (`StateComparer<T>`); `none` stands for an absent /
`undefined` argument where the source supplies a default. -/
abbrev Cmp := JSVal → JSVal → Bool

/-- The `Settable<T>` union: either a direct next state, or an updater function
(`typeof next === "function"` selects the right branch). -/
abbrev Settable := JSVal ⊕ (JSVal → JSVal)

/-- Evaluates `typeof next === "function" ? next(oldState) : next`. -/
def resolveSettable (next : Settable) (oldState : JSVal) : JSVal :=
  match next with
  | .inl v => v
  | .inr f => f oldState

/-- The mutable closure state of one store: the current state and the
subscriber array.  Subscribers are identified by numeric tokens; the
list order is registration order (`subscribers.push`). -/
structure StoreState where
  state : JSVal
  subs : List Nat
deriving DecidableEq

/-- One delivered notification: which subscriber was called, with which
`(oldState, newState)` pair. -/
abbrev Notif := Nat × JSVal × JSVal

/-- The member `set: (next, equals = options?.equals || Object.is) => ...` from
`createStore`.  Returns the store closure state after the call together
with the synchronously delivered notifications, in delivery order. -/
def storeSet (optionsEquals : Option Cmp) (st : StoreState) (next : Settable)
    (equalsArg : Option Cmp) : StoreState × List Notif :=
  let equals := equalsArg.getD (optionsEquals.getD objectIs)
  let oldState := st.state
  let newState := resolveSettable next oldState
  if equals oldState newState then
    (st, [])
  else
    ({ st with state := newState }, st.subs.map fun s => (s, oldState, newState))

/-- The member `subscribe`: pushes the subscriber onto the array. -/
def storeSubscribe (st : StoreState) (sub : Nat) : StoreState :=
  { st with subs := st.subs ++ [sub] }

/-- The unsubscribe closure: `subscribers.filter((cb) => cb !== subscriber)`. -/
def storeUnsubscribe (st : StoreState) (sub : Nat) : StoreState :=
  { st with subs := st.subs.filter fun s => s ≠ sub }

/-! Exception-aware variant of `set`, for the failure-semantics claims.
JS functions may throw, so the updater and the comparer return
`Except Err`.  The result type `EStateM.Result` records, on a throw, the
content of the mutable `state` cell at the moment the exception left
`set`: the source assigns `state = newState` only after both `next(...)`
and `equals(...)` have returned, so on a throw the cell still holds the
old state, and no notification has been issued. -/

/-- A throwing state comparer. -/
abbrev CmpE := JSVal → JSVal → Except Err Bool

/-- A settable whose updater may throw. -/
abbrev SettableE := JSVal ⊕ (JSVal → Except Err JSVal)

/-- Resolves a `SettableE` against the old state. -/
def resolveSettableE (next : SettableE) (oldState : JSVal) : Except Err JSVal :=
  match next with
  | .inl v => .ok v
  | .inr f => f oldState

/-- The member `set` with throwing updater/comparer. `.error e st'` means the call
threw `e` while the state cell held `st'`; `.ok ns st'` means it returned
normally having delivered notifications `ns` with the cell at `st'`. -/
def storeSetE (equals : CmpE) (st : StoreState) (next : SettableE) :
    EStateM.Result Err StoreState (List Notif) :=
  match resolveSettableE next st.state with
  | .error e => .error e st
  | .ok newState =>
    match equals st.state newState with
    | .error e => .error e st
    | .ok eq =>
      if eq then .ok [] st
      else .ok (st.subs.map fun s => (s, st.state, newState))
        { st with state := newState }

/-! ## Shallow JS objects

Generic association-list primitives shared by the object model and
the heap model.  `alistSet` is the JS property write: overwrite the
existing binding in place, otherwise append. -/

/-- First binding of `k`. -/
def alistGet {K V : Type} [DecidableEq K] (o : List (K × V)) (k : K) : Option V :=
  (o.find? fun p => p.1 = k).map fun p => p.2

/-- JS property write `o[k] = v`. -/
def alistSet {K V : Type} [DecidableEq K] (o : List (K × V)) (k : K) (v : V) :
    List (K × V) :=
  if o.any fun p => p.1 = k then
    o.map fun p => if p.1 = k then (k, v) else p
  else o ++ [(k, v)]

/-- JS property delete. -/
def alistDel {K V : Type} [DecidableEq K] (o : List (K × V)) (k : K) : List (K × V) :=
  o.filter fun p => ¬ p.1 = k

theorem alistGet_cons {K V : Type} [DecidableEq K] (p : K × V) (o : List (K × V)) (k : K) :
    alistGet (p :: o) k = if p.1 = k then some p.2 else alistGet o k := by
  by_cases h : p.1 = k <;> simp [alistGet, List.find?_cons, h]

theorem alistGet_append {K V : Type} [DecidableEq K] (a b : List (K × V)) (k : K) :
    alistGet (a ++ b) k = (alistGet a k).orElse fun _ => alistGet b k := by
  induction a with
  | nil => simp [alistGet]
  | cons p a ih =>
    by_cases h : p.1 = k <;>
      simp [List.cons_append, alistGet_cons, h, ih]

theorem alistSet_cons_ne {K V : Type} [DecidableEq K] {p : K × V} {k : K}
    (o : List (K × V)) (v : V) (hp : ¬ p.1 = k) :
    alistSet (p :: o) k v = p :: alistSet o k v := by
  have hd : decide (p.1 = k) = false := by simp [hp]
  simp only [alistSet, List.any_cons, hd, Bool.false_or]
  by_cases h : (o.any fun q => decide (q.1 = k)) = true
  · simp [h, hp]
  · simp [h, hp]

theorem alistGet_map_ne {K V : Type} [DecidableEq K] {k k' : K} (o : List (K × V)) (v : V)
    (hk : ¬ k' = k) :
    alistGet (o.map fun q => if q.1 = k then (k, v) else q) k' = alistGet o k' := by
  induction o with
  | nil => rfl
  | cons q o ih =>
    by_cases hq : q.1 = k
    · have : ¬ (k : K) = k' := fun h => hk h.symm
      simp [alistGet_cons, hq, this, ih]
    · simp [alistGet_cons, hq, ih]

theorem alistGet_alistSet {K V : Type} [DecidableEq K] (o : List (K × V)) (k k' : K) (v : V) :
    alistGet (alistSet o k v) k' = if k' = k then some v else alistGet o k' := by
  induction o with
  | nil =>
    by_cases h : k' = k
    · subst h; simp [alistSet, alistGet_cons]
    · have hk : ¬ (k : K) = k' := fun h' => h h'.symm
      simp [alistSet, alistGet_cons, hk, h, alistGet]
  | cons p o ih =>
    by_cases hp : p.1 = k
    · have ha : (List.any (p :: o) fun q => decide (q.1 = k)) = true := by simp [hp]
      simp only [alistSet, ha, if_true, List.map_cons, if_pos hp]
      by_cases h : k' = k
      · subst h; simp [alistGet_cons]
      · have hk : ¬ (k : K) = k' := fun h' => h h'.symm
        have hpk' : ¬ p.1 = k' := fun hh => hk (hp.symm.trans hh)
        rw [alistGet_cons, alistGet_cons]
        simp only [hk, if_neg, if_false, hpk', h, alistGet_map_ne o v h]
    · rw [alistSet_cons_ne o v hp]
      by_cases h : p.1 = k'
      · have hk : ¬ k' = k := fun h' => hp (h.symm ▸ h' : p.1 = k)
        simp [alistGet_cons, h, hk]
      · simp [alistGet_cons, h, ih]

/-! ## Composition layer (`src/extend.ts`) -/

/-- A shallow JS object: an association list from property names to
values. -/
abbrev JSObj := List (String × JSVal)

/-- Property read `o[k]`. -/
def getKey (o : JSObj) (k : String) : Option JSVal := alistGet o k

/-- The assignment `Object.assign(host, props)`: writes every binding of `props` onto
`host`, in order (later bindings win). -/
def objAssign (host props : JSObj) : JSObj :=
  props.foldl (fun acc p => alistSet acc p.1 p.2) host

/-- The last binding of `k` in `props` — the one `Object.assign` leaves
in effect when `props` binds `k` several times. -/
def getKeyLast (props : JSObj) (k : String) : Option JSVal :=
  getKey props.reverse k

theorem getKey_objAssign (props : JSObj) (host : JSObj) (k : String) :
    getKey (objAssign host props) k
      = (getKeyLast props k).orElse fun _ => getKey host k := by
  induction props generalizing host with
  | nil => simp [objAssign, getKeyLast, getKey, alistGet]
  | cons q rest ih =>
    have hstep : objAssign host (q :: rest) = objAssign (alistSet host q.1 q.2) rest := rfl
    rw [hstep, ih]
    have hlast : getKeyLast (q :: rest) k
        = (getKeyLast rest k).orElse fun _ => if q.1 = k then some q.2 else none := by
      simp only [getKeyLast, getKey, List.reverse_cons, alistGet_append]
      by_cases hq : q.1 = k <;> simp [alistGet_cons, hq, alistGet]
    rw [hlast, getKey, alistGet_alistSet]
    by_cases hq : q.1 = k
    · have hk : (k = q.1) := hq.symm
      cases hres : getKeyLast rest k with
      | none =>
        rw [Option.none_orElse', Option.none_orElse', if_pos hk, if_pos hq,
          Option.some_orElse']
      | some v =>
        rw [Option.some_orElse', Option.some_orElse', Option.some_orElse']
    · have hk : ¬ (k = q.1) := fun h => hq h.symm
      cases hres : getKeyLast rest k with
      | none =>
        rw [Option.none_orElse', Option.none_orElse', if_neg hk, if_neg hq,
          Option.none_orElse']
        rfl
      | some v =>
        rw [Option.some_orElse', Option.some_orElse', Option.some_orElse']

/-- The result of one plugin evaluation step, as a finite description.
`unpack` in the source inspects the value it was handed: it may be the
host itself (`Object.is(plugin, host)`), a non-callable terminal
capability object, or a further callable to re-invoke with the host
(a "deep" plugin). -/
inductive PluginDesc where
  | hostSelf : PluginDesc
  | value : JSObj → PluginDesc
  | callable : (JSObj → PluginDesc) → PluginDesc

/-- The helper `unpack(host, plugin)` from `src/extend.ts`: returns the terminal
capability object; the reference-identity branch contributes the empty
object. -/
def unpack (host : JSObj) : PluginDesc → JSObj
  | .hostSelf => []
  | .value props => props
  | .callable f => unpack host (f host)

/-- The body of `add` in `extend`: `Object.assign(host, unpack(host,
plugin))` — the capability surface after applying one plugin (the
re-added `with`/`seal` members are covered by the heap model below). -/
def extendWith (host : JSObj) (plugin : PluginDesc) : JSObj :=
  objAssign host (unpack host plugin)

/-! Heap model for the in-place mutation claims about `extend`, `with`
and `seal`.  Objects live in a heap indexed by reference id and are
modelled by their property-name list (the property values play no role
in those claims); every holder of the same id observes the same object. -/

/-- The heap: reference id ↦ property names of the object. -/
abbrev HHeap := List (Nat × List String)

/-- Dereference (an absent id reads as the empty object). -/
def hGet (h : HHeap) (i : Nat) : List String := (alistGet h i).getD []

/-- The write `o[k] = v` on property names: JS property insertion keeps an already
present name in place, otherwise appends. -/
def addName (fs : List String) (k : String) : List String :=
  if k ∈ fs then fs else fs ++ [k]

/-- The deletion `delete o[k]`. -/
def delName (fs : List String) (k : String) : List String :=
  fs.filter fun f => ¬ f = k

/-- The function `extend(host)`: `Object.assign(host, { with: add, seal })` — mutates
the object behind `i` and returns the same reference. -/
def extendH (h : HHeap) (i : Nat) : HHeap × Nat :=
  (alistSet h i (addName (addName (hGet h i) "with") "seal"), i)

/-- The closure `add` (the `with` member): `extend(Object.assign(host, unpack(host,
plugin)))` — merges the unpacked capability names onto the object behind
`i`, re-extends it, and returns the same reference. -/
def withH (h : HHeap) (i : Nat) (capNames : List String) : HHeap × Nat :=
  let h1 := alistSet h i (capNames.foldl addName (hGet h i))
  extendH h1 i

/-- The function `sealExtensible(host)`: `delete host.with; delete host.seal` — mutates
the object behind `i` and returns the same reference. -/
def sealH (h : HHeap) (i : Nat) : HHeap × Nat :=
  (alistSet h i (delName (delName (hGet h i) "with") "seal"), i)

/-! ## Keyed expiring cache (`src/util-cache.ts`, `createCache`) -/

/-- The closure state of one cache: the backing map, the configured
default lifetime (`options.lifetime ?? Infinity`), and the timer-based
evictions scheduled by `setTimeout` (they never fire inside the
synchronous call sequences the claims quantify over). -/
structure CacheState (V : Type) where
  entries : List (String × V)
  defaultLifetime : Duration
  evictions : List (String × Duration)
deriving DecidableEq

/-- The member `evict(key, delay?)`: `Infinity` is a no-op, an absent / zero /
negative delay deletes immediately, a positive finite delay schedules the
deletion. -/
def cacheEvict {V : Type} (c : CacheState V) (k : String) (delay : Option Duration) :
    CacheState V :=
  match delay with
  | some .inf => c
  | none => { c with entries := alistDel c.entries k }
  | some (.fin n) =>
      if n ≤ 0 then { c with entries := alistDel c.entries k }
      else { c with evictions := c.evictions ++ [(k, .fin n)] }

/-- The member `set(key, value, lifetime = defaultLifetime)`: stores the value and
schedules its eviction only when the lifetime is positive, and always
returns the value. -/
def cacheSet {V : Type} (c : CacheState V) (k : String) (v : V)
    (lifetime : Option Duration) : CacheState V × V :=
  let lt := lifetime.getD c.defaultLifetime
  if lt.isPos then
    (cacheEvict { c with entries := alistSet c.entries k v } k (some lt), v)
  else (c, v)

/-- The member `get(key, create?, lifetime?)`.  The source tests the entry with
`if (entry)`, i.e. JS truthiness, supplied here as `tr`.  Returns the new
cache state, the returned value (`none` is JS `null`), and whether the
factory was invoked. -/
def cacheGet {V : Type} (tr : V → Bool) (c : CacheState V) (k : String)
    (create : Option (Unit → V)) (lifetime : Option Duration) :
    CacheState V × Option V × Bool :=
  let entry := alistGet c.entries k
  if (entry.map tr).getD false then (c, entry, false)
  else
    match create with
    | none => (c, none, false)
    | some f =>
        let (c', v') := cacheSet c k (f ()) lifetime
        (c', some v', true)

/-! ## Async deduplication (`src/util-dedupe.ts`, `dedupe`) -/

/-- The closure state of one deduplicated function: the hash of the last
remembered call, its promise, and the pending `setTimeout(clear, …)`
handle, if any (never fired in the traces below).  `oldHash` and
`promise` are set and cleared together. -/
structure DedupeMem where
  oldHash : Option String
  promise : Option Nat
  sched : Option Duration
deriving DecidableEq

/-- The closure `clear()`: forgets the remembered hash and promise. -/
def dedupeClear (m : DedupeMem) : DedupeMem :=
  { m with oldHash := none, promise := none }

/-- The closure `clearAfter(duration)`: cancels the pending timer, then clears
immediately for `duration <= 0`, does nothing more for `Infinity`, and
otherwise schedules a clear. -/
def clearAfterMem (d : Duration) (m : DedupeMem) : DedupeMem :=
  let m1 := { m with sched := none }
  if d.le0 then dedupeClear m1
  else if d = .inf then m1
  else { m1 with sched := some d }

/-- One call to the function returned by `dedupe`, at hashed arguments
`h`.  Fresh promises are numbered from `nextPid`.  Returns the new memo,
the next fresh id, the promise handed back to the caller, and whether the
underlying function was invoked.  (When `oldHash === newHash` the source
returns the raw `promise` variable, which is set whenever `oldHash`
is.) -/
def dedupeCall (timeout : Duration) (m : DedupeMem) (nextPid : Nat) (h : String) :
    DedupeMem × Nat × Option Nat × Bool :=
  if m.oldHash = some h then (m, nextPid, m.promise, false)
  else
    let m1 := clearAfterMem timeout m
    ({ oldHash := some h, promise := some nextPid, sched := m1.sched },
      nextPid + 1, some nextPid, true)

/-- A sequence of calls to one deduplicated function, before any promise
settles and any timer fires: per call, the promise returned to the caller
and whether the underlying function was invoked. -/
def dedupeRunFrom (timeout : Duration) (m : DedupeMem) (np : Nat) :
    List String → List (Option Nat × Bool)
  | [] => []
  | h :: hs =>
      let r := dedupeCall timeout m np h
      (r.2.2.1, r.2.2.2) :: dedupeRunFrom timeout r.1 r.2.1 hs

/-- Runs `dedupeRunFrom` from the fresh memo of a newly wrapped function. -/
def dedupeRun (timeout : Duration) (hs : List String) : List (Option Nat × Bool) :=
  dedupeRunFrom timeout ⟨none, none, none⟩ 0 hs

/-! ## Sync plugin (`src/plugin-sync.ts`, `cachedPull`) -/

/-- The world of one `sync` plugin instance wrapping one pull function:
the dedupe memo of `dedupe(fn, { timeout: dedupeTimeout })`, the plugin's
promise cache (`createCache<Promise<any>>()`, default lifetime
`Infinity`), the store, the number of invocations of the underlying pull
function, the fresh promise counter, and — per call, in call order — the
promise each caller's `.then` chain was attached to. -/
structure SyncWorld where
  dmem : DedupeMem
  cache : CacheState Nat
  store : StoreState
  fnCalls : Nat
  nextPid : Nat
  callers : List Nat
deriving DecidableEq

/-- A fresh plugin instance over a given store. -/
def initWorld (st : StoreState) : SyncWorld :=
  { dmem := ⟨none, none, none⟩, cache := ⟨[], .inf, []⟩, store := st,
    fnCalls := 0, nextPid := 0, callers := [] }

/-- One call to the function returned by `cachedPull`, at hashed
arguments `k`:
`cache.get(hash(...args), () => deduped(...args), cacheTime).then(...)`.
`cache.get` is inlined because its factory invokes the deduplicated
function (promise values are objects, hence always truthy).  The caller
then attaches `.then((state) => { store.set(state); return state; })` to
the returned promise. -/
def pullCall (cacheTime dedupeTimeout : Duration) (w : SyncWorld) (k : String) :
    SyncWorld × Nat :=
  match alistGet w.cache.entries k with
  | some p => ({ w with callers := w.callers ++ [p] }, p)
  | none =>
      let (m', np', pOpt, invoked) := dedupeCall dedupeTimeout w.dmem w.nextPid k
      let p := pOpt.getD 0
      let (c', _) := cacheSet w.cache k p (some cacheTime)
      let calls := w.fnCalls + (if invoked then 1 else 0)
      ({ w with dmem := m', cache := c', fnCalls := calls, nextPid := np',
                callers := w.callers ++ [p] }, p)

/-- A burst of calls to `cachedPull` at the same hashed arguments, with
no settlement in between.  Returns the final world and the returned
promises in call order. -/
def runPulls (cacheTime dedupeTimeout : Duration) (k : String) :
    Nat → SyncWorld → SyncWorld × List Nat
  | 0, w => (w, [])
  | n + 1, w =>
      let (w1, p) := pullCall cacheTime dedupeTimeout w k
      let (w2, ps) := runPulls cacheTime dedupeTimeout k n w1
      (w2, p :: ps)

/-- The underlying pull promise `p` resolves with state `v`.  Inside
`dedupe` the chain is `fn(...).finally(() => clearAfter(cacheTime))` with
`dedupe`'s own `cacheTime` left at its default `0` by `plugin-sync`, so
the memo is cleared; then every caller's
`.then((state) => { store.set(state); return state; })` runs, in attach
order.  The store is the plugin's host store with its default `Object.is`
comparer. -/
def settlePullResolve (w : SyncWorld) (p : Nat) (v : JSVal) : SyncWorld :=
  let dmem := clearAfterMem (.fin 0) w.dmem
  let store := w.callers.foldl
    (fun s c => if c = p then (storeSet none s (.inl v) none).1 else s) w.store
  { w with dmem := dmem, store := store }

/-- The underlying pull promise `p` rejects: the `.finally` clears the
memo via `clearAfter(0)`, the `.catch` runs `clear()` and re-throws, and
every caller's `.then` chain rejects without `store.set` running.  The
plugin's promise cache is left untouched.  Returns the world and the
callers whose returned promise rejects. -/
def settlePullReject (w : SyncWorld) (p : Nat) : SyncWorld × List Nat :=
  let dmem := dedupeClear (clearAfterMem (.fin 0) w.dmem)
  ({ w with dmem := dmem }, w.callers.filter fun c => c = p)

/-! ## Array plugin (`src/plugin-array.ts`, `arrayAPI`) -/

/-- The world of an array-state store: a heap of arrays indexed by
reference id, a fresh-id counter, and the store whose state is a `.ref`
into the heap (or `null`). -/
structure ArrWorld where
  arrays : List (Nat × List JSVal)
  nextId : Nat
  store : StoreState
deriving DecidableEq

/-- Dereference an array (absent ids read as the empty array and never
occur in the runs below). -/
def arrGet (h : List (Nat × List JSVal)) (i : Nat) : List JSVal :=
  (alistGet h i).getD []

/-- Insertion position of `Array.prototype.sort(compare)`: the element is
placed before the first element the comparator orders it strictly
ahead of. -/
def insertCmp (cmp : JSVal → JSVal → Int) (x : JSVal) : List JSVal → List JSVal
  | [] => [x]
  | y :: ys => if cmp x y < 0 then x :: y :: ys else y :: insertCmp cmp x ys

/-- Embeds `Array.prototype.sort(compare)` as a stable comparator sort (the
order produced by the engine for a consistent comparator). -/
def jsSortBy (cmp : JSVal → JSVal → Int) (xs : List JSVal) : List JSVal :=
  xs.foldl (fun acc x => insertCmp cmp x acc) []

/-- The member `sort` from `arrayAPI`:
`store.set((state) => (state ? [...state.sort(compare)] : null))`.
`state.sort(compare)` rewrites the array behind the state reference in
place, then the spread copies the (now sorted) elements into a fresh
array, which is handed to `store.set`. -/
def sortOp (cmp : JSVal → JSVal → Int) (w : ArrWorld) : ArrWorld :=
  match w.store.state with
  | .ref i =>
      let sorted := jsSortBy cmp (arrGet w.arrays i)
      let h1 := alistSet w.arrays i sorted
      let nid := w.nextId
      let h2 := alistSet h1 nid sorted
      let (store', _) := storeSet none w.store (.inl (.ref nid)) none
      { arrays := h2, nextId := nid + 1, store := store' }
  | _ =>
      let (store', _) := storeSet none w.store (.inl .null) none
      { w with store := store' }

/-- The member `reverse` from `arrayAPI`:
`store.set((state) => (state ? [...state.reverse()] : null))`.
`state.reverse()` reverses the array behind the state reference in place,
then the spread copies it into a fresh array. -/
def reverseOp (w : ArrWorld) : ArrWorld :=
  match w.store.state with
  | .ref i =>
      let rev := (arrGet w.arrays i).reverse
      let h1 := alistSet w.arrays i rev
      let nid := w.nextId
      let h2 := alistSet h1 nid rev
      let (store', _) := storeSet none w.store (.inl (.ref nid)) none
      { arrays := h2, nextId := nid + 1, store := store' }
  | _ =>
      let (store', _) := storeSet none w.store (.inl .null) none
      { w with store := store' }

/-! ## Store-core lemmas and claims -/

theorem storeSet_default_eq (st : StoreState) (s : JSVal) (h : st.state = s) :
    storeSet none st (.inl s) none = (st, []) := by
  simp [storeSet, resolveSettable, objectIs, h]

theorem storeSet_default_ne (st : StoreState) (s : JSVal) (h : ¬ st.state = s) :
    storeSet none st (.inl s) none
      = (⟨s, st.subs⟩, st.subs.map fun x => (x, st.state, s)) := by
  simp [storeSet, resolveSettable, objectIs, h]

theorem storeSet_default_state (st : StoreState) (s : JSVal) :
    (storeSet none st (.inl s) none).1.state = s := by
  by_cases h : st.state = s
  · rw [storeSet_default_eq st s h]; exact h
  · rw [storeSet_default_ne st s h]

/-- C1: `store.set(next)` resolves `next` (invoking it with the current
state when it is a function), compares the resolved value with the
per-call `equals`, falling back to the configured comparer and defaulting
to `Object.is`; when not equal it replaces the state and synchronously
notifies every currently-registered subscriber with
`(oldState, newState)` in registration order, and when equal the state is
unchanged and nobody is notified. -/
theorem storeSet_protocol (optionsEquals equalsArg : Option Cmp) (st : StoreState)
    (next : Settable) :
    (equalsArg.getD (optionsEquals.getD objectIs) st.state (resolveSettable next st.state)
        = true →
      storeSet optionsEquals st next equalsArg = (st, [])) ∧
    (equalsArg.getD (optionsEquals.getD objectIs) st.state (resolveSettable next st.state)
        = false →
      storeSet optionsEquals st next equalsArg
        = (⟨resolveSettable next st.state, st.subs⟩,
            st.subs.map fun s => (s, st.state, resolveSettable next st.state))) ∧
    (storeSet none st next none = storeSet none st next (some objectIs)) ∧
    (∀ c, storeSet (some c) st next none = storeSet none st next (some c)) := by
  refine ⟨fun h => ?_, fun h => ?_, rfl, fun c => rfl⟩
  · simp [storeSet, h]
  · simp [storeSet, h]

theorem storeSet_protocol_witness :
    objectIs (.num 1) (.num 2) = false ∧
    storeSet none ⟨.num 1, [0, 1]⟩ (.inl (.num 2)) none
      = (⟨.num 2, [0, 1]⟩, [(0, .num 1, .num 2), (1, .num 1, .num 2)]) :=
  ⟨by decide,
    (storeSet_protocol none none ⟨.num 1, [0, 1]⟩ (.inl (.num 2))).2.1 (by decide)⟩

/-- C8 counterexample: on a store whose state is already `0` (with
subscriber `7` registered), calling `set(0)` twice in a row with the
default comparer delivers no notification at all — not exactly one per
subscriber as claimed. -/
theorem storeSet_twice_counterexample :
    ¬ (((storeSet none ⟨.num 0, [7]⟩ (.inl (.num 0)) none).2 ++
        (storeSet none (storeSet none ⟨.num 0, [7]⟩ (.inl (.num 0)) none).1
          (.inl (.num 0)) none).2).length = 1) := by
  decide

/-- C8 (amended): calling `store.set(s)` twice in a row with the default
comparer notifies each subscriber at most once in total — exactly once
each when `s` is not identical (`Object.is`) to the state before the
first call, and zero times when it is — and the second call is always a
no-op. -/
theorem storeSet_twice_amended (s : JSVal) (st : StoreState) :
    (storeSet none (storeSet none st (.inl s) none).1 (.inl s) none
        = ((storeSet none st (.inl s) none).1, [])) ∧
    ((storeSet none st (.inl s) none).2.length
        + (storeSet none (storeSet none st (.inl s) none).1 (.inl s) none).2.length
      = if objectIs st.state s then 0 else st.subs.length) := by
  have h2 : storeSet none (storeSet none st (.inl s) none).1 (.inl s) none
      = ((storeSet none st (.inl s) none).1, []) :=
    storeSet_default_eq _ s (storeSet_default_state st s)
  refine ⟨h2, ?_⟩
  rw [h2]
  by_cases h : st.state = s
  · rw [storeSet_default_eq st s h]
    simp [objectIs, h]
  · rw [storeSet_default_ne st s h]
    simp [objectIs, h]

/-- C6: when the updater passed to `set`, or the comparer it uses,
throws, the exception propagates synchronously to the caller of `set`,
the stored state is exactly what it was before the call, and no
subscriber is notified. -/
theorem storeSetE_throw (equals : CmpE) (st : StoreState) (next : SettableE) (e : Err) :
    (resolveSettableE next st.state = .error e →
      storeSetE equals st next = .error e st) ∧
    (∀ v, resolveSettableE next st.state = .ok v → equals st.state v = .error e →
      storeSetE equals st next = .error e st) := by
  constructor
  · intro h; simp [storeSetE, h]
  · intro v h1 h2; simp [storeSetE, h1, h2]

theorem storeSetE_throw_witness :
    storeSetE (fun _ _ => .ok true) ⟨.num 1, [0]⟩ (.inr fun _ => .error "boom")
      = .error "boom" ⟨.num 1, [0]⟩ :=
  (storeSetE_throw (fun _ _ => .ok true) ⟨.num 1, [0]⟩
    (.inr fun _ => .error "boom") "boom").1 rfl

/-! ## Composition-layer claims -/

/-- C5: a callable plugin result is recursively re-invoked with the host
until a non-callable result is produced, which is then shallow-merged
onto the host with later keys winning; a result reference-identical to
the host contributes the empty capability set and leaves the host's
existing capabilities unchanged. -/
theorem unpack_protocol (host : JSObj) (f : JSObj → PluginDesc) (props : JSObj)
    (k : String) :
    (unpack host (.callable f) = unpack host (f host)) ∧
    (getKey (extendWith host (.value props)) k
        = (getKeyLast props k).orElse fun _ => getKey host k) ∧
    (unpack host .hostSelf = []) ∧
    (extendWith host .hostSelf = host) := by
  refine ⟨rfl, ?_, rfl, rfl⟩
  exact getKey_objAssign props host k

theorem hGet_alistSet (h : HHeap) (i : Nat) (fs : List String) :
    hGet (alistSet h i fs) i = fs := by
  simp [hGet, alistGet_alistSet]

theorem mem_addName_self (fs : List String) (k : String) : k ∈ addName fs k := by
  unfold addName
  split
  · assumption
  · simp

theorem mem_addName_of_mem {fs : List String} {k : String} (k' : String)
    (hm : k ∈ fs) : k ∈ addName fs k' := by
  unfold addName
  split
  · exact hm
  · exact List.mem_append_left _ hm

theorem not_mem_delName_self (fs : List String) (k : String) : ¬ k ∈ delName fs k := by
  simp [delName, List.mem_filter]

theorem not_mem_delName {fs : List String} {k : String} (k' : String)
    (h : ¬ k ∈ fs) : ¬ k ∈ delName fs k' := fun hm =>
  h (List.mem_filter.mp hm).1

/-- C10: `extend` and `with` mutate the host object in place and return
the same reference (`extend` attaches the `with` and `seal` members to
the object behind the reference), and after `seal()` every previously
captured reference to the composed object — i.e. the same heap id — has
lost its `with` and `seal` members. -/
theorem extend_in_place (h : HHeap) (i : Nat) (capNames : List String) :
    ((extendH h i).2 = i) ∧
    ((withH h i capNames).2 = i) ∧
    ((sealH (withH h i capNames).1 i).2 = i) ∧
    ("with" ∈ hGet (extendH h i).1 i ∧ "seal" ∈ hGet (extendH h i).1 i) ∧
    (¬ "with" ∈ hGet (sealH (withH h i capNames).1 i).1 i ∧
      ¬ "seal" ∈ hGet (sealH (withH h i capNames).1 i).1 i) := by
  refine ⟨rfl, rfl, rfl, ⟨?_, ?_⟩, ?_, ?_⟩
  · rw [extendH, hGet_alistSet]
    exact mem_addName_of_mem "seal" (mem_addName_self _ "with")
  · rw [extendH, hGet_alistSet]
    exact mem_addName_self _ "seal"
  · rw [sealH, hGet_alistSet]
    exact not_mem_delName "seal" (not_mem_delName_self _ "with")
  · rw [sealH, hGet_alistSet]
    exact not_mem_delName_self _ "seal"

/-! ## Cache claims -/

theorem cacheEvict_pos_entries {V : Type} (c : CacheState V) (k : String)
    (d : Duration) (hd : d.isPos = true) :
    (cacheEvict c k (some d)).entries = c.entries := by
  cases d with
  | inf => rfl
  | fin n =>
    have : ¬ n ≤ 0 := by
      simp [Duration.isPos] at hd
      omega
    simp [cacheEvict, this]

/-- C4 counterexample: a cache holding the (falsy) value `0` under `"k"`
— an unexpired, permanent entry — answers `get("k")` with `null` instead
of the stored value, because the source tests the entry with JS
truthiness (`if (entry)`). -/
theorem cacheGet_falsy_counterexample :
    alistGet (cacheSet (⟨[], .inf, []⟩ : CacheState JSVal) "k" (.num 0) none).1.entries "k"
        = some (.num 0) ∧
    (cacheGet jsTruthy (cacheSet (⟨[], .inf, []⟩ : CacheState JSVal) "k" (.num 0) none).1
        "k" none none).2.1 = none := by
  decide

/-- C4 (amended): `get(key)` returns the stored value whenever an
unexpired entry holding a truthy value is present (a falsy stored value
is treated as absent); `get(key)` with no factory returns `null` when no
truthy entry is present; `get(key, factory, lifetime?)` on a miss invokes
the factory exactly once, stores the result via `set` (which retains it
only for a positive effective lifetime), and returns it; when the result
is truthy and retained, a second `get(key)` without a factory returns it
without re-invoking the factory. -/
theorem cacheGet_spec {V : Type} (tr : V → Bool) (c : CacheState V) (k : String)
    (f : Unit → V) (lt : Option Duration) (v : V) :
    (alistGet c.entries k = some v → tr v = true →
      cacheGet tr c k none lt = (c, some v, false) ∧
      ∀ g : Unit → V, cacheGet tr c k (some g) lt = (c, some v, false)) ∧
    ((alistGet c.entries k).map tr = some false ∨ alistGet c.entries k = none →
      cacheGet tr c k none lt = (c, none, false)) ∧
    (alistGet c.entries k = none →
      cacheGet tr c k (some f) lt = ((cacheSet c k (f ()) lt).1, some (f ()), true)) ∧
    (alistGet c.entries k = none → tr (f ()) = true →
      (lt.getD c.defaultLifetime).isPos = true →
      cacheGet tr (cacheGet tr c k (some f) lt).1 k none none
        = ((cacheGet tr c k (some f) lt).1, some (f ()), false)) := by
  refine ⟨fun h1 h2 => ⟨?_, fun g => ?_⟩, fun h => ?_, fun h => ?_, fun h1 h2 h3 => ?_⟩
  · simp [cacheGet, h1, h2]
  · simp [cacheGet, h1, h2]
  · rcases h with h | h
    · cases he : alistGet c.entries k with
      | none => simp [he] at h
      | some val =>
        simp [he] at h
        simp [cacheGet, he, h]
    · simp [cacheGet, h]
  · simp only [cacheGet, cacheSet, h, Option.map_none', Option.getD_none,
      Bool.false_eq_true, if_false]
    split <;> rfl
  · have hfirst : (cacheGet tr c k (some f) lt).1 = (cacheSet c k (f ()) lt).1 := by
      simp only [cacheGet, h1, Option.map_none', Option.getD_none,
        Bool.false_eq_true, if_false]
    have hentries : (cacheSet c k (f ()) lt).1.entries = alistSet c.entries k (f ()) := by
      simp only [cacheSet, h3, if_true]
      exact cacheEvict_pos_entries _ k _ h3
    have hlook : alistGet (cacheGet tr c k (some f) lt).1.entries k = some (f ()) := by
      rw [hfirst, hentries, alistGet_alistSet]
      simp
    rw [hfirst]
    simp [cacheGet, hentries, alistGet_alistSet, h2]

theorem cacheGet_spec_witness :
    cacheGet jsTruthy (⟨[], .inf, []⟩ : CacheState JSVal) "k" (some fun _ => .num 7) none
        = ((cacheSet (⟨[], .inf, []⟩ : CacheState JSVal) "k" (.num 7) none).1,
            some (.num 7), true) ∧
    cacheGet jsTruthy
        (cacheGet jsTruthy (⟨[], .inf, []⟩ : CacheState JSVal) "k"
          (some fun _ => .num 7) none).1 "k" none none
      = ((cacheGet jsTruthy (⟨[], .inf, []⟩ : CacheState JSVal) "k"
            (some fun _ => .num 7) none).1, some (.num 7), false) :=
  ⟨(cacheGet_spec jsTruthy ⟨[], .inf, []⟩ "k" (fun _ => .num 7) none (.num 7)).2.2.1 rfl,
    (cacheGet_spec jsTruthy ⟨[], .inf, []⟩ "k" (fun _ => .num 7) none (.num 7)).2.2.2
      rfl (by decide) (by decide)⟩

/-! ## Dedupe claims -/

theorem dedupeCall_hit (t : Duration) (m : DedupeMem) (np : Nat) (h : String)
    (h1 : m.oldHash = some h) :
    dedupeCall t m np h = (m, np, m.promise, false) := by
  simp [dedupeCall, h1]

theorem dedupeCall_miss (t : Duration) (m : DedupeMem) (np : Nat) (h : String)
    (h1 : ¬ m.oldHash = some h) :
    dedupeCall t m np h
      = (⟨some h, some np, (clearAfterMem t m).sched⟩, np + 1, some np, true) := by
  simp [dedupeCall, h1]

/-- C9: `dedupe` remembers at most one call identity: a call whose hash
equals the remembered unsettled call's hash returns that call's stored
promise without invoking the underlying function; a call whose hash
differs always invokes the underlying function and replaces the single
remembered hash and promise; consequently the sequence A, B, A (all
before any settlement) invokes the underlying function three times. -/
theorem dedupeCall_memory (t : Duration) (m : DedupeMem) (np : Nat) (h : String) :
    (∀ p, m.oldHash = some h → m.promise = some p →
      dedupeCall t m np h = (m, np, some p, false)) ∧
    (¬ m.oldHash = some h →
      dedupeCall t m np h
        = (⟨some h, some np, (clearAfterMem t m).sched⟩, np + 1, some np, true)) ∧
    (∀ a b : String, ¬ a = b →
      ((dedupeRun t [a, b, a]).filter fun r => r.2).length = 3) := by
  refine ⟨fun p h1 h2 => ?_, fun h1 => dedupeCall_miss t m np h h1, fun a b hab => ?_⟩
  · rw [dedupeCall_hit t m np h h1, h2]
  · have hba : ¬ b = a := fun hh => hab hh.symm
    rw [dedupeRun, dedupeRunFrom, dedupeCall_miss t _ 0 a (by simp)]
    dsimp only
    rw [dedupeRunFrom, dedupeCall_miss t _ 1 b (by simp [hab])]
    dsimp only
    rw [dedupeRunFrom, dedupeCall_miss t _ 2 a (by simp [hba])]
    dsimp only
    rw [dedupeRunFrom]
    decide

theorem dedupeCall_memory_witness :
    dedupeCall .inf ⟨some "a", some 5, none⟩ 6 "a"
        = (⟨some "a", some 5, none⟩, 6, some 5, false) ∧
    ((dedupeRun .inf ["a", "b", "a"]).filter fun r => r.2).length = 3 :=
  ⟨(dedupeCall_memory .inf ⟨some "a", some 5, none⟩ 6 "a").1 5 rfl rfl,
    (dedupeCall_memory .inf ⟨none, none, none⟩ 0 "x").2.2 "a" "b" (by decide)⟩

/-! ## Sync-plugin claims -/

theorem pullCall_first (ct dt : Duration) (k : String) (st : StoreState) :
    pullCall ct dt (initWorld st) k
      = ({ dmem := ⟨some k, some 0, (clearAfterMem dt ⟨none, none, none⟩).sched⟩,
           cache := (cacheSet ⟨[], .inf, []⟩ k 0 (some ct)).1,
           store := st, fnCalls := 1, nextPid := 1, callers := [0] }, 0) := by
  have he : alistGet ([] : List (String × Nat)) k = none := rfl
  simp only [pullCall, initWorld, he]
  simp only [dedupeCall_miss dt ⟨none, none, none⟩ 0 k (by simp)]
  simp

theorem pullCall_inv (ct dt : Duration) (k : String) (w : SyncWorld)
    (h1 : w.dmem.oldHash = some k) (h2 : w.dmem.promise = some 0)
    (h3 : w.cache.entries = if ct.isPos = true then [(k, 0)] else []) :
    pullCall ct dt w k = ({ w with callers := w.callers ++ [0] }, 0) := by
  by_cases hct : ct.isPos = true
  · have hhit : alistGet w.cache.entries k = some 0 := by
      rw [h3, if_pos hct, alistGet_cons]
      simp
    simp only [pullCall, hhit]
  · have he : alistGet w.cache.entries k = none := by
      rw [h3, if_neg hct]
      rfl
    simp only [pullCall, he, dedupeCall_hit dt w.dmem w.nextPid k h1, h2]
    simp [cacheSet, hct]

theorem runPulls_inv (ct dt : Duration) (k : String) (n : Nat) (w : SyncWorld)
    (h1 : w.dmem.oldHash = some k) (h2 : w.dmem.promise = some 0)
    (h3 : w.cache.entries = if ct.isPos = true then [(k, 0)] else []) :
    runPulls ct dt k n w
      = ({ w with callers := w.callers ++ List.replicate n 0 }, List.replicate n 0) := by
  induction n generalizing w with
  | zero => simp [runPulls]
  | succ n ih =>
    simp only [runPulls]
    rw [pullCall_inv ct dt k w h1 h2 h3]
    dsimp only
    rw [ih { w with callers := w.callers ++ [0] } h1 h2 h3]
    simp [List.replicate_succ]

theorem settle_fold_state (v : JSVal) (p : Nat) (m : Nat) :
    ∀ s : StoreState,
      ((List.replicate (m + 1) p).foldl
        (fun acc c => if c = p then (storeSet none acc (.inl v) none).1 else acc) s).state
        = v := by
  induction m with
  | zero =>
    intro s
    simp [List.replicate_succ, storeSet_default_state]
  | succ m ih =>
    intro s
    rw [List.replicate_succ, List.foldl_cons, if_pos rfl]
    exact ih _

/-- C2: several `cachedPull` calls with identical hashed arguments issued
before the first call's promise settles invoke the underlying pull
function exactly once, hand every caller the same promise, and after that
promise resolves the store's state is the resolved value (written via
`store.set`) — for every `cacheTime` and `dedupeTimeout` setting. -/
theorem pull_dedupe (ct dt : Duration) (k : String) (st : StoreState) (n : Nat)
    (v : JSVal) :
    (runPulls ct dt k (n + 1) (initWorld st)).1.fnCalls = 1 ∧
    (runPulls ct dt k (n + 1) (initWorld st)).2 = List.replicate (n + 1) 0 ∧
    (settlePullResolve (runPulls ct dt k (n + 1) (initWorld st)).1 0 v).store.state
      = v := by
  have hfirst := pullCall_first ct dt k st
  set W1 : SyncWorld :=
    { dmem := ⟨some k, some 0, (clearAfterMem dt ⟨none, none, none⟩).sched⟩,
      cache := (cacheSet ⟨[], .inf, []⟩ k 0 (some ct)).1,
      store := st, fnCalls := 1, nextPid := 1, callers := [0] } with hW1
  have h1 : W1.dmem.oldHash = some k := rfl
  have h2 : W1.dmem.promise = some 0 := rfl
  have h3 : W1.cache.entries = if ct.isPos = true then [(k, 0)] else [] := by
    by_cases hct : ct.isPos = true
    · rw [if_pos hct, hW1]
      have harr : alistSet ([] : List (String × Nat)) k 0 = [(k, 0)] := rfl
      simp only [cacheSet, Option.getD_some, hct, if_true]
      rw [cacheEvict_pos_entries _ k _ hct]
      exact harr
    · rw [if_neg hct, hW1]
      simp [cacheSet, hct]
  have hrun := runPulls_inv ct dt k n W1 h1 h2 h3
  have hstep : runPulls ct dt k (n + 1) (initWorld st)
      = ({ W1 with callers := [0] ++ List.replicate n 0 }, 0 :: List.replicate n 0) := by
    simp only [runPulls]
    rw [hfirst]
    dsimp only
    rw [hrun]
  rw [hstep]
  refine ⟨rfl, by simp [List.replicate_succ], ?_⟩
  show ((([0] ++ List.replicate n 0).foldl
      (fun s c => if c = 0 then (storeSet none s (.inl v) none).1 else s) W1.store)).state = v
  have : ([0] ++ List.replicate n 0) = List.replicate (n + 1) 0 := by
    simp [List.replicate_succ]
  rw [this]
  exact settle_fold_state v 0 n W1.store

/-- C3: evaluation at the failing input.  One `cachedPull` call with
`cacheTime = 1000` ms at hashed arguments `"a"`; the underlying promise
rejects; a second call with the same arguments follows.  The rejection is
propagated to the one caller sharing the deduplicated promise, but —
contrary to the claim — the plugin's result-cache entry survives the
rejection, so the second call replays the rejected promise `0` and the
underlying pull function is not re-invoked (its invocation count stays
`1` instead of becoming `2`). -/
theorem pull_reject_replay :
    ((settlePullReject (pullCall (.fin 1000) .inf (initWorld ⟨.null, []⟩) "a").1 0).2
        = [0]) ∧
    (alistGet
        (settlePullReject (pullCall (.fin 1000) .inf (initWorld ⟨.null, []⟩) "a").1
          0).1.cache.entries "a"
      = some 0) ∧
    ((pullCall (.fin 1000) .inf
        (settlePullReject (pullCall (.fin 1000) .inf (initWorld ⟨.null, []⟩) "a").1
          0).1 "a").2 = 0) ∧
    ((pullCall (.fin 1000) .inf
        (settlePullReject (pullCall (.fin 1000) .inf (initWorld ⟨.null, []⟩) "a").1
          0).1 "a").1.fnCalls = 1) := by
  decide

/-- A numeric ascending comparator, `(a, b) => a - b`. -/
def cmpNum : JSVal → JSVal → Int := fun a b =>
  match a, b with
  | .num x, .num y => x - y
  | _, _ => 0

/-- C7: evaluation at the failing input.  A store whose state is the
array `[2, 1]` behind reference `0` (with subscriber `9`); `sort` with
the ascending numeric comparator makes a fresh array (reference `1`) the
next state, but — contrary to the claim — the caller-held previous state
array (reference `0`) does not keep its element order: it has been
sorted in place.  Likewise `reverse` on `[1, 2]` reverses the previous
state array in place. -/
theorem sort_reverse_mutate :
    ((sortOp cmpNum ⟨[(0, [.num 2, .num 1])], 1, ⟨.ref 0, [9]⟩⟩).store.state = .ref 1) ∧
    (arrGet (sortOp cmpNum ⟨[(0, [.num 2, .num 1])], 1, ⟨.ref 0, [9]⟩⟩).arrays 1
      = [.num 1, .num 2]) ∧
    (arrGet (sortOp cmpNum ⟨[(0, [.num 2, .num 1])], 1, ⟨.ref 0, [9]⟩⟩).arrays 0
      = [.num 1, .num 2]) ∧
    ¬ (arrGet (sortOp cmpNum ⟨[(0, [.num 2, .num 1])], 1, ⟨.ref 0, [9]⟩⟩).arrays 0
      = [.num 2, .num 1]) ∧
    ((reverseOp ⟨[(0, [.num 1, .num 2])], 1, ⟨.ref 0, [9]⟩⟩).store.state = .ref 1) ∧
    (arrGet (reverseOp ⟨[(0, [.num 1, .num 2])], 1, ⟨.ref 0, [9]⟩⟩).arrays 0
      = [.num 2, .num 1]) ∧
    ¬ (arrGet (reverseOp ⟨[(0, [.num 1, .num 2])], 1, ⟨.ref 0, [9]⟩⟩).arrays 0
      = [.num 1, .num 2]) := by
  decide
